import Mathlib

/-!
Verification of the conversational session-orchestration core of the
keimatchchatbot repository: the TTL key-value stores (`src/lib/ttlMap.ts`),
the durable handoff flag store (`src/lib/handoffStore.ts`), the message
coalescer / debounce engine and handoff dispatch (`src/lib/lineHandlers.ts`),
and the direct-vs-generate answer decision (`src/lib/qaAnswer.ts`).

JS strings are modelled as lists of characters (`JStr`), JS numbers used as
timestamps and counts as `Nat`, similarity scores as `ℚ`.  JS `Map` objects
are modelled as association lists with the usual replace-on-set semantics.
-/

/-- JS strings, modelled as lists of characters. -/
abbrev JStr := List Char

/-- JS `String.prototype.trim()`: drop whitespace from both ends. -/
def jsTrim (s : JStr) : JStr :=
  ((s.dropWhile Char.isWhitespace).reverse.dropWhile Char.isWhitespace).reverse

/-- JS `String.prototype.toLowerCase()` (ASCII letters; other characters,
including the Japanese keywords used here, are unchanged). -/
def jsLower (s : JStr) : JStr := s.map Char.toLower

/-- JS `haystack.includes(needle)`: substring test. -/
def jsIncludes (needle : JStr) : JStr → Bool
  | [] => needle.isEmpty
  | c :: rest => needle.isPrefixOf (c :: rest) || jsIncludes needle rest

/-- The body of a JS `while (l.length > cap) l.shift()` loop: drop elements
from the front until at most `cap` remain. -/
def trimFront (cap : Nat) : List α → List α
  | [] => []
  | x :: xs => if xs.length + 1 > cap then trimFront cap xs else x :: xs

theorem trimFront_length (cap : Nat) (l : List α) :
    (trimFront cap l).length ≤ cap ∨
      ((trimFront cap l) = l ∧ l.length ≤ cap) := by
  induction l with
  | nil => simp [trimFront]
  | cons x xs ih =>
    simp only [trimFront]
    split
    · rcases ih with h | ⟨h1, h2⟩
      · exact Or.inl h
      · exact Or.inl (by rw [h1]; exact h2)
    · right
      constructor
      · rfl
      · simp only [List.length_cons]
        omega

theorem trimFront_le (cap : Nat) (l : List α) : (trimFront cap l).length ≤ cap := by
  rcases trimFront_length cap l with h | ⟨h1, h2⟩
  · exact h
  · rw [h1]; exact h2

theorem trimFront_eq_of_le (cap : Nat) (l : List α) (h : l.length ≤ cap) :
    trimFront cap l = l := by
  cases l with
  | nil => rfl
  | cons x xs =>
    simp only [trimFront]
    rw [if_neg]
    simp only [List.length_cons] at h
    omega

theorem trimFront_eq_drop (cap : Nat) (l : List α) :
    trimFront cap l = l.drop (l.length - cap) := by
  induction l with
  | nil => simp [trimFront]
  | cons x xs ih =>
    simp only [trimFront]
    split
    · rename_i h
      rw [ih]
      have hlen : (x :: xs).length - cap = (xs.length - cap) + 1 := by
        simp only [List.length_cons]
        omega
      rw [hlen, List.drop_succ_cons]
    · rename_i h
      have hlen : (x :: xs).length - cap = 0 := by
        simp only [List.length_cons] at h ⊢
        omega
      rw [hlen, List.drop_zero]

theorem trimFront_suffix (cap : Nat) (l : List α) : trimFront cap l <:+ l := by
  induction l with
  | nil => simp [trimFront]
  | cons x xs ih =>
    simp only [trimFront]
    split
    · exact ih.trans (List.suffix_cons x xs)
    · exact List.suffix_refl _

/-- Lookup by key in a JS `Map` modelled as an association list
(JS `Map.prototype.get`). -/
def lookupKey : List (String × β) → String → Option β
  | [], _ => none
  | (k', e) :: rest, k => if k' = k then some e else lookupKey rest k

/-- JS `Map.prototype.set`: replace the entry if the key is present,
otherwise append it. -/
def setEntry : List (String × β) → String → β → List (String × β)
  | [], k, e => [(k, e)]
  | (k', e') :: rest, k, e =>
    if k' = k then (k, e) :: rest else (k', e') :: setEntry rest k e

/-- JS `Map.prototype.delete`: remove the entry with the given key. -/
def eraseKey : List (String × β) → String → List (String × β)
  | [], _ => []
  | (k', e') :: rest, k => if k' = k then rest else (k', e') :: eraseKey rest k

theorem lookupKey_eraseKey_of_nodup (m : List (String × β)) (k : String)
    (hnd : (m.map Prod.fst).Nodup) : lookupKey (eraseKey m k) k = none := by
  induction m with
  | nil => rfl
  | cons p rest ih =>
    obtain ⟨k', e'⟩ := p
    simp only [List.map_cons, List.nodup_cons] at hnd
    simp only [eraseKey]
    split
    · subst_vars
      clear ih
      induction rest with
      | nil => rfl
      | cons q rest2 ih2 =>
        obtain ⟨k2, e2⟩ := q
        simp only [List.map_cons, List.mem_cons, List.nodup_cons] at hnd
        simp only [lookupKey]
        rw [if_neg]
        · exact ih2 ⟨fun hm => hnd.1 (Or.inr hm), hnd.2.2⟩
        · intro hk
          exact hnd.1 (Or.inl hk.symm)
    · simp only [lookupKey]
      rw [if_neg (by assumption)]
      exact ih hnd.2

theorem lookupKey_setEntry (m : List (String × β)) (k : String) (e : β) :
    lookupKey (setEntry m k e) k = some e := by
  induction m with
  | nil => simp [setEntry, lookupKey]
  | cons p rest ih =>
    obtain ⟨k', e'⟩ := p
    simp only [setEntry]
    split
    · simp [lookupKey]
    · simp only [lookupKey]
      rw [if_neg (by assumption)]
      exact ih

theorem mem_setEntry (m : List (String × β)) (k : String) (e : β)
    (p : String × β) (hp : p ∈ setEntry m k e) : p = (k, e) ∨ p ∈ m := by
  induction m with
  | nil => simpa [setEntry] using hp
  | cons q rest ih =>
    simp only [setEntry] at hp
    split at hp
    · rcases List.mem_cons.mp hp with h | h
      · exact Or.inl h
      · exact Or.inr (List.mem_cons_of_mem _ h)
    · rcases List.mem_cons.mp hp with h | h
      · exact Or.inr (h ▸ List.mem_cons_self _ _)
      · rcases ih h with h' | h'
        · exact Or.inl h'
        · exact Or.inr (List.mem_cons_of_mem _ h')

theorem eraseKey_sublist (m : List (String × β)) (k : String) :
    List.Sublist (eraseKey m k) m := by
  induction m with
  | nil => simp [eraseKey]
  | cons q rest ih =>
    obtain ⟨k', e'⟩ := q
    simp only [eraseKey]
    split
    · exact List.sublist_cons_self _ _
    · exact ih.cons₂ _

theorem lookupKey_mem (m : List (String × β)) (k : String) (e : β)
    (h : lookupKey m k = some e) : (k, e) ∈ m := by
  induction m with
  | nil => simp [lookupKey] at h
  | cons q rest ih =>
    obtain ⟨k', e'⟩ := q
    simp only [lookupKey] at h
    split at h
    · subst_vars
      cases h
      exact List.mem_cons_self _ _
    · exact List.mem_cons_of_mem _ (ih h)

namespace TTLMap

/-- One entry of the single-value TTL map (`src/lib/ttlMap.ts`, `TTLMap`):
a stored value plus its absolute expiry time. -/
structure Entry (V : Type) where
  value : V
  expiresAt : Nat
deriving Repr, DecidableEq

/-- The internal `Map` of a `TTLMap`, as an association list. -/
abbrev MapState (V : Type) := List (String × Entry V)

/-- `TTLMap.set(key, value, customTtlMs?)` (ttlMap.ts lines 34-40):
stores the value with `expiresAt = now + (customTtlMs ?? ttlMs)`. -/
def set (ttlMs : Nat) (m : MapState V) (k : String) (v : V) (now : Nat)
    (customTtlMs : Option Nat := none) : MapState V :=
  setEntry m k ⟨v, now + customTtlMs.getD ttlMs⟩

/-- `TTLMap.get(key)` (ttlMap.ts lines 42-50): returns the value unless
`entry.expiresAt < now`, in which case the entry is removed lazily and
`undefined` is returned.  Returns the result together with the map after
the read. -/
def get (m : MapState V) (k : String) (now : Nat) : Option V × MapState V :=
  match lookupKey m k with
  | none => (none, m)
  | some e =>
    if e.expiresAt < now then (none, eraseKey m k) else (some e.value, m)

/-- `TTLMap.refresh(key)` (ttlMap.ts lines 67-72) with no `value` argument:
re-reads the key (with lazy expiry) and, if a value is present, stores it
again with the default TTL measured from `now`. -/
def refresh (ttlMs : Nat) (m : MapState V) (k : String) (now : Nat) :
    MapState V :=
  let r := get m k now
  match r.1 with
  | some v => set ttlMs r.2 k v now
  | none => r.2

end TTLMap

/-- **C5 (counterexample).**  The claim states that `TTLMap.get` treats an
entry whose `expiresAt` equals the read time as expired (`now ≥ expiresAt`
returns `undefined`).  The code tests `entry.expiresAt < Date.now()`, so at
the exact boundary instant `now = expiresAt = 100` the stored value is still
returned and the entry is kept. -/
theorem ttlmap_get_boundary_counterexample :
    (100:Nat) ≥ 100 ∧
      (TTLMap.get [("k", TTLMap.Entry.mk (0:Nat) 100)] "k" 100).1 = some 0 ∧
      (TTLMap.get [("k", TTLMap.Entry.mk (0:Nat) 100)] "k" 100).2
        = [("k", TTLMap.Entry.mk (0:Nat) 100)] := by
  refine ⟨le_refl _, ?_, ?_⟩ <;> rfl

/-- **C5 (amended).**  `get(key)` returns the stored value and leaves the map
unchanged for every read at a time `now ≤ expiresAt` (the boundary instant
counts as live), and returns `undefined` and removes the entry for every
read with `now > expiresAt`. -/
theorem ttlmap_get_expiry (V : Type) (m : TTLMap.MapState V) (k : String)
    (v : V) (exp now : Nat) (hnd : (m.map Prod.fst).Nodup)
    (hlook : lookupKey m k = some ⟨v, exp⟩) :
    (now ≤ exp →
      (TTLMap.get m k now).1 = some v ∧ (TTLMap.get m k now).2 = m) ∧
    (exp < now →
      (TTLMap.get m k now).1 = none ∧
        lookupKey (TTLMap.get m k now).2 k = none) := by
  constructor
  · intro hle
    simp only [TTLMap.get, hlook]
    rw [if_neg (by omega)]
    exact ⟨rfl, rfl⟩
  · intro hlt
    simp only [TTLMap.get, hlook]
    rw [if_pos (by omega)]
    exact ⟨rfl, lookupKey_eraseKey_of_nodup m k hnd⟩

/-- Witness for the amended C5 at a concrete store. -/
theorem ttlmap_get_expiry_witness :
    ((50:Nat) ≤ 100 →
      (TTLMap.get [("k", TTLMap.Entry.mk (7:Nat) 100)] "k" 50).1 = some 7 ∧
      (TTLMap.get [("k", TTLMap.Entry.mk (7:Nat) 100)] "k" 50).2
        = [("k", TTLMap.Entry.mk (7:Nat) 100)]) ∧
    ((100:Nat) < 50 →
      (TTLMap.get [("k", TTLMap.Entry.mk (7:Nat) 100)] "k" 50).1 = none ∧
      lookupKey (TTLMap.get [("k", TTLMap.Entry.mk (7:Nat) 100)] "k" 50).2 "k"
        = none) :=
  ttlmap_get_expiry Nat [("k", TTLMap.Entry.mk 7 100)] "k" 7 100 50
    (by decide) (by decide)

/-- **C6.**  For a key present and unexpired, `refresh(key)` re-arms the TTL
from `now`: the entry's `expiresAt` becomes `now + ttlMs` while the stored
value is unchanged.  For any entry written with the store's default TTL at a
time `t0 ≤ now` (so `exp = t0 + ttlMs`), this extends the expiry:
`exp ≤ now + ttlMs`. -/
theorem ttlmap_refresh_rearms (V : Type) (ttlMs : Nat) (m : TTLMap.MapState V)
    (k : String) (v : V) (exp now : Nat)
    (hlook : lookupKey m k = some ⟨v, exp⟩) (hlive : now ≤ exp) :
    lookupKey (TTLMap.refresh ttlMs m k now) k = some ⟨v, now + ttlMs⟩ ∧
    (∀ t0, t0 ≤ now → exp = t0 + ttlMs → exp ≤ now + ttlMs) := by
  constructor
  · simp only [TTLMap.refresh, TTLMap.get, hlook]
    rw [if_neg (by omega)]
    simp only [TTLMap.set, Option.getD]
    exact lookupKey_setEntry m k _
  · intro t0 ht0 hexp
    omega

/-- Witness for C6 at a concrete store: ttl 100, entry `(7, exp 120)` written
at time 20, refreshed at time 50. -/
theorem ttlmap_refresh_rearms_witness :
    lookupKey
        (TTLMap.refresh 100 [("k", TTLMap.Entry.mk (7:Nat) 120)] "k" 50) "k"
      = some ⟨7, 150⟩ ∧
    (∀ t0, t0 ≤ 50 → 120 = t0 + 100 → 120 ≤ 50 + 100) :=
  ttlmap_refresh_rearms Nat 100 [("k", TTLMap.Entry.mk 7 120)] "k" 7 120 50
    (by decide) (by decide)

/-- JS `values.slice(-n)` on an array: the last `n` elements — except that
`slice(-0)` is `slice(0)`, the whole array. -/
def jsSliceLast (n : Nat) (l : List α) : List α :=
  if n = 0 then l else l.drop (l.length - n)

theorem jsSliceLast_length_le (n : Nat) (hn : 1 ≤ n) (l : List α) :
    (jsSliceLast n l).length ≤ n := by
  simp only [jsSliceLast]
  rw [if_neg (by omega)]
  rw [List.length_drop]
  omega

namespace TTLArrayMap

/-- One entry of the array-variant TTL map (`src/lib/ttlMap.ts`,
`TTLArrayMap`): an ordered sequence of values plus its absolute expiry. -/
structure AEntry (V : Type) where
  values : List V
  expiresAt : Nat
deriving Repr, DecidableEq

/-- The internal `Map` of a `TTLArrayMap`. -/
abbrev AState (V : Type) := List (String × AEntry V)

/-- `TTLArrayMap.push(key, value)` (ttlMap.ts lines 167-184): append to an
unexpired existing sequence, shift out the oldest elements while the length
exceeds `maxItems`, and reset the TTL; otherwise start a fresh singleton
sequence with a fresh TTL. -/
def push (ttlMs maxItems : Nat) (m : AState V) (k : String) (v : V)
    (now : Nat) : AState V :=
  match lookupKey m k with
  | some e =>
    if now ≤ e.expiresAt then
      setEntry m k ⟨trimFront maxItems (e.values ++ [v]), now + ttlMs⟩
    else
      setEntry m k ⟨[v], now + ttlMs⟩
  | none => setEntry m k ⟨[v], now + ttlMs⟩

/-- `TTLArrayMap.get(key)` (ttlMap.ts lines 186-194): lazy expiry on read,
as in `TTLMap.get`. -/
def get (m : AState V) (k : String) (now : Nat) :
    Option (List V) × AState V :=
  match lookupKey m k with
  | none => (none, m)
  | some e =>
    if e.expiresAt < now then (none, eraseKey m k) else (some e.values, m)

/-- `TTLArrayMap.set(key, values)` (ttlMap.ts lines 196-202): replace the
sequence with `values.slice(-maxItems)` and reset the TTL. -/
def set (ttlMs maxItems : Nat) (m : AState V) (k : String) (values : List V)
    (now : Nat) : AState V :=
  setEntry m k ⟨jsSliceLast maxItems values, now + ttlMs⟩

/-- The observable operations on a `TTLArrayMap` (each carries the wall
clock time at which it runs). -/
inductive AOp (V : Type) where
  | push (k : String) (v : V) (now : Nat)
  | set (k : String) (values : List V) (now : Nat)
  | get (k : String) (now : Nat)
  | delete (k : String)

/-- One operation applied to the store state. -/
def step (ttlMs maxItems : Nat) (m : AState V) : AOp V → AState V
  | .push k v now => push ttlMs maxItems m k v now
  | .set k vs now => set ttlMs maxItems m k vs now
  | .get k now => (get m k now).2
  | .delete k => eraseKey m k

/-- The state reached from the empty store by a sequence of operations. -/
def run (ttlMs maxItems : Nat) (ops : List (AOp V)) : AState V :=
  ops.foldl (step ttlMs maxItems) []

theorem step_bounded (ttlMs maxItems : Nat) (hcap : 1 ≤ maxItems)
    (m : AState V) (op : AOp V)
    (hm : ∀ p ∈ m, (Prod.snd p).values.length ≤ maxItems) :
    ∀ p ∈ step ttlMs maxItems m op, (Prod.snd p).values.length ≤ maxItems := by
  intro p hp
  cases op with
  | push k v now =>
    simp only [step] at hp
    rcases hl : lookupKey m k with _ | e <;>
      simp only [push, hl] at hp
    · rcases mem_setEntry _ _ _ _ hp with h | h
      · subst h; simpa using hcap
      · exact hm p h
    · split at hp
      · rcases mem_setEntry _ _ _ _ hp with h | h
        · subst h; exact trimFront_le _ _
        · exact hm p h
      · rcases mem_setEntry _ _ _ _ hp with h | h
        · subst h; simpa using hcap
        · exact hm p h
  | set k vs now =>
    simp only [step, set] at hp
    rcases mem_setEntry _ _ _ _ hp with h | h
    · subst h
      exact jsSliceLast_length_le _ hcap _
    · exact hm p h
  | get k now =>
    simp only [step] at hp
    rcases hl : lookupKey m k with _ | e <;>
      simp only [get, hl] at hp
    · exact hm p hp
    · split at hp
      · simp only at hp
        exact hm p ((eraseKey_sublist m k).mem hp)
      · simp only at hp
        exact hm p hp
  | delete k =>
    simp only [step] at hp
    exact hm p ((eraseKey_sublist m k).mem hp)

theorem run_bounded (ttlMs maxItems : Nat) (hcap : 1 ≤ maxItems)
    (ops : List (AOp V)) :
    ∀ p ∈ run ttlMs maxItems ops, (Prod.snd p).values.length ≤ maxItems := by
  suffices h : ∀ (ops : List (AOp V)) (m : AState V),
      (∀ p ∈ m, (Prod.snd p).values.length ≤ maxItems) →
      ∀ p ∈ ops.foldl (step ttlMs maxItems) m,
        (Prod.snd p).values.length ≤ maxItems by
    exact h ops [] (by simp)
  intro ops
  induction ops with
  | nil => intro m hm; simpa using hm
  | cons op rest ih =>
    intro m hm
    exact ih _ (step_bounded ttlMs maxItems hcap m op hm)

end TTLArrayMap

/-- **C7.**  For the array-variant store with a positive configured cap
(the repository configures 10 for session history):
(1) in every state reachable from the empty store by push/set/get/delete
operations, every stored sequence has length at most the cap;
(2) `push` on an existing unexpired sequence appends the value and keeps
exactly the most recent `maxItems` elements — the stored sequence is the
suffix `(e.values ++ [v]).drop (e.values.length + 1 - maxItems)`, so when
the cap is exceeded the oldest elements are the ones evicted — with the TTL
re-armed to `now + ttlMs`;
(3) `push` on an absent or expired key stores the fresh singleton `[v]`
with the TTL re-armed to `now + ttlMs`;
(4) `set` stores the last `maxItems` elements with TTL re-armed to
`now + ttlMs`;
(5) `get` on an unexpired key returns the stored sequence and leaves the
whole state — in particular the TTL — unchanged. -/
theorem ttlArrayMap_cap_and_ttl_reset (V : Type) (ttlMs maxItems : Nat)
    (hcap : 1 ≤ maxItems) :
    (∀ ops : List (TTLArrayMap.AOp V),
      ∀ k e, lookupKey (TTLArrayMap.run ttlMs maxItems ops) k = some e →
        e.values.length ≤ maxItems) ∧
    (∀ (m : TTLArrayMap.AState V) k v now e, lookupKey m k = some e →
      now ≤ e.expiresAt →
      lookupKey (TTLArrayMap.push ttlMs maxItems m k v now) k
        = some ⟨(e.values ++ [v]).drop (e.values.length + 1 - maxItems),
            now + ttlMs⟩) ∧
    (∀ (m : TTLArrayMap.AState V) k v now,
      (lookupKey m k = none ∨
        ∃ e, lookupKey m k = some e ∧ e.expiresAt < now) →
      lookupKey (TTLArrayMap.push ttlMs maxItems m k v now) k
        = some ⟨[v], now + ttlMs⟩) ∧
    (∀ (m : TTLArrayMap.AState V) k vs now,
      lookupKey (TTLArrayMap.set ttlMs maxItems m k vs now) k
        = some ⟨jsSliceLast maxItems vs, now + ttlMs⟩) ∧
    (∀ (m : TTLArrayMap.AState V) k e now, lookupKey m k = some e →
      now ≤ e.expiresAt → TTLArrayMap.get m k now = (some e.values, m)) := by
  refine ⟨?_, ?_, ?_, ?_, ?_⟩
  · intro ops k e hl
    exact TTLArrayMap.run_bounded ttlMs maxItems hcap ops (k, e)
      (lookupKey_mem _ _ _ hl)
  · intro m k v now e hl hlive
    simp only [TTLArrayMap.push, hl]
    rw [if_pos hlive, trimFront_eq_drop]
    simp only [List.length_append, List.length_cons, List.length_nil]
    exact lookupKey_setEntry _ _ _
  · intro m k v now hdead
    rcases hdead with hl | ⟨e, hl, hexp⟩ <;> simp only [TTLArrayMap.push, hl]
    · exact lookupKey_setEntry _ _ _
    · rw [if_neg (by omega)]
      exact lookupKey_setEntry _ _ _
  · intro m k vs now
    exact lookupKey_setEntry _ _ _
  · intro m k e now hl hlive
    simp only [TTLArrayMap.get, hl]
    rw [if_neg (by omega)]

/-- Witness for C7 with cap 3 (the unit tests' configuration): the
reachability bound at a concrete trace, and a push onto the full sequence
`[5, 6, 7]` at the cap, which evicts the oldest element 5 and stores
`[6, 7, 8]` with the TTL re-armed. -/
theorem ttlArrayMap_cap_and_ttl_reset_witness :
    ((1:Nat) ≤ 3) ∧
    (∀ k e, lookupKey (TTLArrayMap.run (V := Nat) 100 3
        [TTLArrayMap.AOp.push "k" 1 0, TTLArrayMap.AOp.push "k" 2 1,
         TTLArrayMap.AOp.push "k" 3 2, TTLArrayMap.AOp.push "k" 4 3]) k
          = some e → e.values.length ≤ 3) ∧
    lookupKey
        (TTLArrayMap.push 100 3
          [("k", TTLArrayMap.AEntry.mk [5, 6, 7] 50)] "k" (8:Nat) 10) "k"
      = some ⟨[6, 7, 8], 110⟩ := by
  have h := ttlArrayMap_cap_and_ttl_reset Nat 100 3 (by decide)
  refine ⟨by decide, ?_, ?_⟩
  · intro k e hl
    exact h.1 _ k e hl
  · have hp := h.2.1 [("k", TTLArrayMap.AEntry.mk [5, 6, 7] 50)] "k" 8 10
      (TTLArrayMap.AEntry.mk [5, 6, 7] 50) rfl (by decide)
    rw [hp]
    rfl

namespace Decision

/-- The direct-vs-generate decision of the first `generateAnswer`
(qaAnswer.ts lines 97-103): given the retrieval scores in descending order,
`useDirectMode = best && best.score >= SIM_THRESHOLD && scoreGap >= 0.05`
where `scoreGap = best.score - (secondBest?.score || 0)`. -/
def useDirectMode (simThreshold : ℚ) (scores : List ℚ) : Bool :=
  match scores with
  | [] => false
  | best :: rest =>
    let second : ℚ := (rest.head?).getD 0
    decide (simThreshold ≤ best) && decide ((5:ℚ)/100 ≤ best - second)

/-- The direct-vs-generate decision of the second embedded `generateAnswer`
(qaAnswer.ts lines 325-339): `best && best.score >= SIM_THRESHOLD` with no
margin condition. -/
def useDirectModeSecond (simThreshold : ℚ) (scores : List ℚ) : Bool :=
  match scores with
  | [] => false
  | best :: _ => decide (simThreshold ≤ best)

end Decision

/-- **C1 (counterexample).**  The claim "direct mode iff `bestScore ≥
simThreshold` AND `(bestScore − secondScore) ≥ marginThreshold`" fails for
the second embedded decision: with its default threshold 0.84 and the tied
scores `[0.90, 0.90]` it chooses direct mode although the margin is
`0 < 0.05`. -/
theorem decision_margin_counterexample :
    Decision.useDirectModeSecond (84/100) [9/10, 9/10] = true ∧
      ¬ ((5:ℚ)/100 ≤ 9/10 - 9/10) := by
  constructor
  · simp only [Decision.useDirectModeSecond, decide_eq_true_eq]
    norm_num
  · norm_num

/-- **C1 (amended).**  The first version's decision satisfies the claimed
rule exactly: direct mode iff a best score exists, it is at least the
threshold, and its gap over the second score (taken as 0 when absent) is at
least 0.05; an empty result list never selects direct mode, and a singleton
list uses 0 as the second score.  The second embedded version instead
chooses direct mode iff the best score alone reaches its threshold. -/
theorem decision_policy_characterisation (simThreshold : ℚ)
    (scores : List ℚ) :
    (Decision.useDirectMode simThreshold scores = true ↔
      ∃ best, scores.head? = some best ∧ simThreshold ≤ best ∧
        (5:ℚ)/100 ≤ best - (scores.tail.head?).getD 0) ∧
    (scores = [] → Decision.useDirectMode simThreshold scores = false) ∧
    (∀ b, scores = [b] →
      (Decision.useDirectMode simThreshold scores = true ↔
        simThreshold ≤ b ∧ (5:ℚ)/100 ≤ b - 0)) ∧
    (Decision.useDirectModeSecond simThreshold scores = true ↔
      ∃ best, scores.head? = some best ∧ simThreshold ≤ best) := by
  refine ⟨?_, ?_, ?_, ?_⟩
  · cases scores with
    | nil => simp [Decision.useDirectMode]
    | cons b rest =>
      simp only [Decision.useDirectMode, List.head?_cons, List.tail_cons,
        Bool.and_eq_true, decide_eq_true_eq]
      constructor
      · rintro ⟨h1, h2⟩
        exact ⟨b, rfl, h1, h2⟩
      · rintro ⟨b', hb', h1, h2⟩
        cases hb'
        exact ⟨h1, h2⟩
  · rintro rfl
    rfl
  · rintro b rfl
    simp [Decision.useDirectMode]
  · cases scores with
    | nil => simp [Decision.useDirectModeSecond]
    | cons b rest =>
      simp only [Decision.useDirectModeSecond, List.head?_cons,
        decide_eq_true_eq]
      constructor
      · intro h
        exact ⟨b, rfl, h⟩
      · rintro ⟨b', hb', h⟩
        cases hb'
        exact h

/-- Witness for the amended C1: with threshold 0.85 and scores
`[0.90, 0.60]` the first decision selects direct mode. -/
theorem decision_policy_characterisation_witness :
    Decision.useDirectMode (85/100) [9/10, 6/10] = true :=
  (decision_policy_characterisation (85/100) [9/10, 6/10]).1.mpr
    ⟨9/10, rfl, by norm_num, by norm_num⟩

/-- JS `messages.join('\n')`: newline-joined concatenation. -/
def joinNL : List JStr → JStr
  | [] => []
  | [x] => x
  | x :: y :: xs => x ++ '\n' :: joinNL (y :: xs)

theorem joinNL_append_one (l : List JStr) (x : JStr) :
    joinNL (l ++ [x]) = if l = [] then x else joinNL l ++ '\n' :: x := by
  induction l with
  | nil => rfl
  | cons y ys ih =>
    cases ys with
    | nil => rfl
    | cons z zs =>
      rw [if_neg (by simp)]
      have : (y :: z :: zs) ++ [x] = y :: ((z :: zs) ++ [x]) := rfl
      rw [this]
      show y ++ '\n' :: joinNL ((z :: zs) ++ [x]) = _
      rw [ih]
      rw [if_neg (by simp)]
      simp [joinNL]

theorem joinNL_length_mono (l : List JStr) (x : JStr) :
    (joinNL l).length ≤ (joinNL (l ++ [x])).length := by
  rw [joinNL_append_one]
  split
  · subst_vars
    simp [joinNL]
  · simp only [List.length_append, List.length_cons]
    omega

/-- The second loop of `trimDebounceBuffer` (lineHandlers.ts lines 380-383):
`while (trimmed.join('\n').length > MAX_DEBOUNCE_CHARS && trimmed.length > 1)
trimmed.shift()`. -/
def trimCharsFront (maxChars : Nat) : List JStr → List JStr
  | [] => []
  | [x] => [x]
  | x :: y :: xs =>
    if (joinNL (x :: y :: xs)).length > maxChars then
      trimCharsFront maxChars (y :: xs)
    else x :: y :: xs

theorem trimCharsFront_suffix (c : Nat) (l : List JStr) :
    trimCharsFront c l <:+ l := by
  induction l with
  | nil => simp [trimCharsFront]
  | cons x xs ih =>
    cases xs with
    | nil => simp [trimCharsFront]
    | cons y ys =>
      simp only [trimCharsFront]
      split
      · exact ih.trans (List.suffix_cons x (y :: ys))
      · exact List.suffix_refl _

theorem trimCharsFront_spec (c : Nat) (l : List JStr) :
    (joinNL (trimCharsFront c l)).length ≤ c ∨
      (trimCharsFront c l).length ≤ 1 := by
  induction l with
  | nil => right; simp [trimCharsFront]
  | cons x xs ih =>
    cases xs with
    | nil => right; simp [trimCharsFront]
    | cons y ys =>
      simp only [trimCharsFront]
      split
      · exact ih
      · left; omega

theorem trimCharsFront_eq_of_le (c : Nat) (l : List JStr)
    (h : (joinNL l).length ≤ c) : trimCharsFront c l = l := by
  cases l with
  | nil => rfl
  | cons x xs =>
    cases xs with
    | nil => rfl
    | cons y ys =>
      simp only [trimCharsFront]
      rw [if_neg (by omega)]

/-- `trimDebounceBuffer` (lineHandlers.ts lines 372-392): cap the fragment
count (oldest dropped first), then cap the combined newline-joined length
(oldest dropped first, keeping at least one fragment), and finally truncate
the remaining text if a single fragment still exceeds the character cap. -/
def trimDebounceBuffer (maxMsgs maxChars : Nat) (messages : List JStr) :
    List JStr :=
  let t1 := trimFront maxMsgs messages
  let t2 := trimCharsFront maxChars t1
  let joined := joinNL t2
  if joined.length > maxChars then [joined.take maxChars] else t2

theorem trimDebounceBuffer_eq_of_bounds (maxMsgs maxChars : Nat)
    (l : List JStr) (hcnt : l.length ≤ maxMsgs)
    (hlen : (joinNL l).length ≤ maxChars) :
    trimDebounceBuffer maxMsgs maxChars l = l := by
  simp only [trimDebounceBuffer]
  rw [trimFront_eq_of_le _ _ hcnt, trimCharsFront_eq_of_le _ _ hlen,
    if_neg (by omega)]

/-- **C4.**  Every output of `trimDebounceBuffer` holds at most `maxMsgs`
fragments and its newline-joined text has length at most `maxChars`; the
output is a suffix of the input (whole fragments dropped oldest-first)
except when a single remaining fragment alone exceeds the character cap, in
which case that fragment's text is truncated to the cap.  Since every
coalescer buffer stored by `enqueueDebounce` is an output of
`trimDebounceBuffer`, every reachable buffer satisfies these bounds. -/
theorem trimDebounceBuffer_bounds (maxMsgs maxChars : Nat)
    (messages : List JStr) :
    (trimDebounceBuffer maxMsgs maxChars messages).length ≤ maxMsgs ∧
    (joinNL (trimDebounceBuffer maxMsgs maxChars messages)).length
      ≤ maxChars ∧
    (trimDebounceBuffer maxMsgs maxChars messages <:+ messages ∨
      ∃ m, [m] <:+ messages ∧ maxChars < m.length ∧
        trimDebounceBuffer maxMsgs maxChars messages
          = [m.take maxChars]) := by
  have hsuf1 : trimFront maxMsgs messages <:+ messages :=
    trimFront_suffix _ _
  have hsuf2 : trimCharsFront maxChars (trimFront maxMsgs messages)
      <:+ trimFront maxMsgs messages := trimCharsFront_suffix _ _
  have hlen1 : (trimFront maxMsgs messages).length ≤ maxMsgs :=
    trimFront_le _ _
  have hlen2 := hsuf2.length_le
  simp only [trimDebounceBuffer]
  split
  · -- single remaining fragment exceeds the cap
    rename_i hgt
    have hspec := trimCharsFront_spec maxChars (trimFront maxMsgs messages)
    have hshort : (trimCharsFront maxChars (trimFront maxMsgs messages)).length ≤ 1 := by
      rcases hspec with h | h
      · omega
      · exact h
    -- the list is nonempty, hence a singleton [m] with m = its join
    rcases hm : trimCharsFront maxChars (trimFront maxMsgs messages)
        with _ | ⟨m, rest⟩
    · rw [hm] at hgt
      simp [joinNL] at hgt
    · have hrest : rest = [] := by
        rw [hm] at hshort
        simp only [List.length_cons] at hshort
        exact List.eq_nil_of_length_eq_zero (by omega)
      subst hrest
      rw [hm] at hgt
      simp only [joinNL] at hgt ⊢
      refine ⟨?_, ?_, ?_⟩
      · have : 1 ≤ (trimFront maxMsgs messages).length := by
          have := hsuf2.length_le
          rw [hm] at this
          simpa using this
        simpa using le_trans this hlen1
      · simp only [List.length_take]
        omega
      · right
        exact ⟨m, (hm ▸ hsuf2).trans hsuf1, hgt, rfl⟩
  · rename_i hle
    refine ⟨le_trans hlen2 hlen1, by omega, Or.inl (hsuf2.trans hsuf1)⟩

/-- One user's pending coalescer buffer (lineHandlers.ts `PendingDebounce`):
the active flush timer, the accumulated text fragments, and the most recent
reply token (tokens modelled as numeric identifiers). -/
structure Pending where
  timerId : Nat
  messages : List JStr
  replyToken : Nat
deriving Repr, DecidableEq

/-- One user's debounce-relevant state: the `pendingDebounce` entry, the
`inFlightUsers` membership, the session history (`messageHistory`), the
answers produced so far by flushes, the set of currently scheduled timers
for this user, and a counter generating fresh timer handles. -/
structure DState where
  pending : Option Pending
  inFlight : Bool
  history : List JStr
  answers : List JStr
  activeTimers : List Nat
  nextTimer : Nat
deriving Repr, DecidableEq

def initDState : DState :=
  { pending := none, inFlight := false, history := [], answers := [],
    activeTimers := [], nextTimer := 0 }

/-- `enqueueDebounce` (lineHandlers.ts lines 440-466): if a buffer exists,
append the fragment, re-trim, replace the reply token with the newest one,
and cancel-and-replace the flush timer; otherwise create a fresh buffer and
arm a fresh timer. -/
def enqueueDebounce (maxMsgs maxChars : Nat) (s : DState) (text : JStr)
    (tok : Nat) : DState :=
  match s.pending with
  | some p =>
    { s with
      pending := some ⟨s.nextTimer,
        trimDebounceBuffer maxMsgs maxChars (p.messages ++ [text]), tok⟩,
      activeTimers := (s.activeTimers.erase p.timerId) ++ [s.nextTimer],
      nextTimer := s.nextTimer + 1 }
  | none =>
    { s with
      pending := some ⟨s.nextTimer,
        trimDebounceBuffer maxMsgs maxChars [text], tok⟩,
      activeTimers := s.activeTimers ++ [s.nextTimer],
      nextTimer := s.nextTimer + 1 }

/-- `flushDebounce` (lineHandlers.ts lines 394-438): no-op without a buffer;
no-op behind the in-flight guard; otherwise remove the buffer, join the
trimmed fragments into one combined turn, and (if it is nonempty after
trimming) answer it and append it as a single entry to the session history
(capped at 10).  The flush is atomic in this sequential model, so the
in-flight flag ends where it started. -/
def flushDebounce (maxMsgs maxChars : Nat) (s : DState) : DState :=
  match s.pending with
  | none => s
  | some p =>
    if s.inFlight then s
    else
      let messages := trimDebounceBuffer maxMsgs maxChars p.messages
      let combined := jsTrim (joinNL messages)
      if combined = [] then { s with pending := none }
      else
        { s with
          pending := none,
          answers := s.answers ++ [combined],
          history := trimFront 10 (s.history ++ [combined]) }

/-- A scheduled timer firing: it only runs if it is still active (a cleared
timer never fires), consumes itself, and runs `flushDebounce`. -/
def fireTimer (maxMsgs maxChars : Nat) (id : Nat) (s : DState) : DState :=
  if id ∈ s.activeTimers then
    flushDebounce maxMsgs maxChars
      { s with activeTimers := s.activeTimers.erase id }
  else s

/-- Events that can happen to one user's debounce state. -/
inductive DOp where
  | enq (text : JStr) (tok : Nat)
  | fire (id : Nat)

def dstep (maxMsgs maxChars : Nat) (s : DState) : DOp → DState
  | .enq t tok => enqueueDebounce maxMsgs maxChars s t tok
  | .fire id => fireTimer maxMsgs maxChars id s

def drun (maxMsgs maxChars : Nat) (ops : List DOp) : DState :=
  ops.foldl (dstep maxMsgs maxChars) initDState

/-- The combined logical turn a flush would produce from a buffer. -/
def combinedOf (maxMsgs maxChars : Nat) (msgs : List JStr) : JStr :=
  jsTrim (joinNL (trimDebounceBuffer maxMsgs maxChars msgs))

theorem flushDebounce_some (maxMsgs maxChars : Nat) (s : DState)
    (p : Pending) (hp : s.pending = some p) (hf : s.inFlight = false) :
    flushDebounce maxMsgs maxChars s =
      (if combinedOf maxMsgs maxChars p.messages = [] then
        { s with pending := none }
      else
        { s with
          pending := none,
          answers := s.answers ++ [combinedOf maxMsgs maxChars p.messages],
          history := trimFront 10
            (s.history ++ [combinedOf maxMsgs maxChars p.messages]) }) := by
  simp only [flushDebounce, hp, hf, combinedOf]
  rfl

/-- The timer/pending invariant: the scheduled timers for a user are exactly
the (at most one) timer of the pending buffer, and no flush is executing
between events. -/
def timerInv (s : DState) : Prop :=
  (match s.pending with
   | none => s.activeTimers = []
   | some p => s.activeTimers = [p.timerId]) ∧ s.inFlight = false

theorem timerInv_step (maxMsgs maxChars : Nat) (s : DState) (op : DOp)
    (h : timerInv s) : timerInv (dstep maxMsgs maxChars s op) := by
  obtain ⟨h1, h2⟩ := h
  cases op with
  | enq t tok =>
    rcases hp : s.pending with _ | p <;>
      simp only [dstep, enqueueDebounce, hp] <;> rw [hp] at h1
    · exact ⟨by simp [h1], h2⟩
    · refine ⟨?_, h2⟩
      simp only [h1, timerInv]
      simp [List.erase_cons_head]
  | fire id =>
    simp only [dstep, fireTimer]
    split
    · rename_i hmem
      rcases hp : s.pending with _ | p <;> rw [hp] at h1
      · rw [h1] at hmem
        simp at hmem
      · rw [h1] at hmem
        simp only [List.mem_singleton] at hmem
        subst hmem
        rw [flushDebounce_some maxMsgs maxChars _ p (by simp [hp])
          (by simpa using h2)]
        split <;>
          exact ⟨by simp [h1, List.erase_cons_head], by simpa using h2⟩
    · exact ⟨h1, h2⟩

theorem timerInv_run (maxMsgs maxChars : Nat) (ops : List DOp) :
    timerInv (drun maxMsgs maxChars ops) := by
  suffices h : ∀ (ops : List DOp) (s : DState), timerInv s →
      timerInv (ops.foldl (dstep maxMsgs maxChars) s) by
    exact h ops initDState ⟨rfl, rfl⟩
  intro ops
  induction ops with
  | nil => intro s hs; exact hs
  | cons op rest ih =>
    intro s hs
    exact ih _ (timerInv_step maxMsgs maxChars s op hs)

/-- A burst of enqueues for one user (each fragment with its reply token),
all arriving before the pending timer fires. -/
def enqAll (maxMsgs maxChars : Nat) (frags : List (JStr × Nat))
    (s : DState) : DState :=
  frags.foldl (fun st ft => enqueueDebounce maxMsgs maxChars st ft.1 ft.2) s

theorem enqAll_spec (maxMsgs maxChars : Nat) (frags : List (JStr × Nat)) :
    frags ≠ [] → (frags.map Prod.fst).length ≤ maxMsgs →
    (joinNL (frags.map Prod.fst)).length ≤ maxChars →
    enqAll maxMsgs maxChars frags initDState =
      { pending := some ⟨frags.length - 1, frags.map Prod.fst,
          ((frags.getLast?).map Prod.snd).getD 0⟩,
        inFlight := false, history := [], answers := [],
        activeTimers := [frags.length - 1], nextTimer := frags.length } := by
  induction frags using List.reverseRecOn with
  | nil => intro h; exact absurd rfl h
  | append_singleton l a ih =>
    intro _ hcnt hlen
    simp only [List.map_append, List.map_cons, List.map_nil] at hcnt hlen
    rcases eq_or_ne l [] with rfl | hl
    · simp only [List.nil_append] at hcnt hlen ⊢
      have ht : trimDebounceBuffer maxMsgs maxChars [a.1] = [a.1] :=
        trimDebounceBuffer_eq_of_bounds _ _ _ (by simpa using hcnt) hlen
      simp [enqAll, enqueueDebounce, initDState, ht]
    · have hcnt' : (l.map Prod.fst).length ≤ maxMsgs := by
        simp only [List.length_append, List.length_cons, List.length_nil,
          List.length_map] at hcnt ⊢
        omega
      have hlen' : (joinNL (l.map Prod.fst)).length ≤ maxChars :=
        le_trans (joinNL_length_mono _ _) hlen
      have hstep : enqAll maxMsgs maxChars (l ++ [a]) initDState =
          enqueueDebounce maxMsgs maxChars
            (enqAll maxMsgs maxChars l initDState) a.1 a.2 := by
        simp [enqAll, List.foldl_append]
      rw [hstep, ih hl hcnt' hlen']
      have ht : trimDebounceBuffer maxMsgs maxChars
          (l.map Prod.fst ++ [a.1]) = l.map Prod.fst ++ [a.1] :=
        trimDebounceBuffer_eq_of_bounds _ _ _
          (by simpa using hcnt) (by simpa using hlen)
      simp only [enqueueDebounce, ht]
      simp only [List.erase_cons_head, List.nil_append, List.map_append,
        List.map_cons, List.map_nil, List.length_append, List.length_cons,
        List.length_nil, List.getLast?_concat]
      have hlast : l.length + 1 - 1 = l.length := by omega
      simp [hlast]

/-- **C3.**  For every nonempty burst of enqueues for one user whose
combined turn fits the configured bounds (and is a nonempty, trim-stable
string, as actual inbound messages are, being pre-trimmed), exactly one
flush occurs: after the burst there is exactly one pending buffer holding
all fragments in arrival order and exactly one scheduled timer; firing that
timer produces the single answer — all fragments joined with newlines — 
removes the buffer and leaves no timer, and any further timer firing is a
no-op.  Moreover in every state reachable by any mix of enqueue and fire
events there is at most one scheduled timer for the user (each enqueue
cancels and replaces the pending timer). -/
theorem debounce_single_flush (maxMsgs maxChars : Nat)
    (frags : List (JStr × Nat)) (hne : frags ≠ [])
    (hcnt : (frags.map Prod.fst).length ≤ maxMsgs)
    (hlen : (joinNL (frags.map Prod.fst)).length ≤ maxChars)
    (htr : jsTrim (joinNL (frags.map Prod.fst)) = joinNL (frags.map Prod.fst))
    (hnz : joinNL (frags.map Prod.fst) ≠ []) :
    (∃ p, (enqAll maxMsgs maxChars frags initDState).pending = some p ∧
      p.messages = frags.map Prod.fst ∧
      (enqAll maxMsgs maxChars frags initDState).activeTimers
        = [p.timerId] ∧
      (fireTimer maxMsgs maxChars p.timerId
          (enqAll maxMsgs maxChars frags initDState)).answers
        = [joinNL (frags.map Prod.fst)] ∧
      (fireTimer maxMsgs maxChars p.timerId
          (enqAll maxMsgs maxChars frags initDState)).pending = none ∧
      (fireTimer maxMsgs maxChars p.timerId
          (enqAll maxMsgs maxChars frags initDState)).activeTimers = [] ∧
      ∀ id, fireTimer maxMsgs maxChars id
          (fireTimer maxMsgs maxChars p.timerId
            (enqAll maxMsgs maxChars frags initDState))
        = fireTimer maxMsgs maxChars p.timerId
            (enqAll maxMsgs maxChars frags initDState)) ∧
    (∀ ops : List DOp,
      (drun maxMsgs maxChars ops).activeTimers.length ≤ 1) := by
  have hspec := enqAll_spec maxMsgs maxChars frags hne hcnt hlen
  have ht : trimDebounceBuffer maxMsgs maxChars (frags.map Prod.fst)
      = frags.map Prod.fst :=
    trimDebounceBuffer_eq_of_bounds _ _ _ hcnt hlen
  have hcomb : combinedOf maxMsgs maxChars (frags.map Prod.fst)
      = joinNL (frags.map Prod.fst) := by
    rw [combinedOf, ht, htr]
  have hfire : fireTimer maxMsgs maxChars (frags.length - 1)
      (enqAll maxMsgs maxChars frags initDState) =
      { pending := none, inFlight := false,
        history := trimFront 10 [joinNL (frags.map Prod.fst)],
        answers := [joinNL (frags.map Prod.fst)],
        activeTimers := [], nextTimer := frags.length } := by
    rw [hspec]
    unfold fireTimer
    rw [if_pos (by simp)]
    rw [flushDebounce_some _ _ _ ⟨frags.length - 1, frags.map Prod.fst,
      ((frags.getLast?).map Prod.snd).getD 0⟩ (by rfl) (by rfl)]
    simp only [hcomb]
    rw [if_neg hnz]
    simp [List.erase_cons_head]
  constructor
  · refine ⟨⟨frags.length - 1, frags.map Prod.fst,
      ((frags.getLast?).map Prod.snd).getD 0⟩, ?_, rfl, ?_, ?_, ?_, ?_, ?_⟩
    · rw [hspec]
    · rw [hspec]
    · rw [hfire]
    · rw [hfire]
    · rw [hfire]
    · intro id
      rw [hfire]
      simp [fireTimer]
  · intro ops
    obtain ⟨h1, _⟩ := timerInv_run maxMsgs maxChars ops
    rcases hp : (drun maxMsgs maxChars ops).pending with _ | p <;>
      rw [hp] at h1 <;> simp [h1]

/-- Witness for C3: the spec's concrete scenario — fragments `"a"` then
`"b"` in one window flush once, answering `"a\nb"`. -/
theorem debounce_single_flush_witness :
    ∃ p, (enqAll 5 800 [([ 'a' ], 0), ([ 'b' ], 1)] initDState).pending
        = some p ∧
      p.messages = [[ 'a' ], [ 'b' ]] ∧
      (fireTimer 5 800 p.timerId
          (enqAll 5 800 [([ 'a' ], 0), ([ 'b' ], 1)] initDState)).answers
        = [[ 'a', '\n', 'b' ]] := by
  obtain ⟨⟨p, hp, hmsg, hact, hans, hpend, hact2, hrep⟩, -⟩ :=
    debounce_single_flush 5 800 [([ 'a' ], 0), ([ 'b' ], 1)]
      (by decide) (by decide) (by decide) (by decide) (by decide)
  refine ⟨p, hp, ?_, ?_⟩
  · rw [hmsg]
    rfl
  · rw [hans]
    rfl

/-- **C10.**  If `flushDebounce` runs for a user already in the in-flight
set, the call has no effect at all: the pending buffer (fragments and reply
token), the answers, the history and the scheduled timers are all untouched
and no new timer is armed; a later enqueue then appends to the retained
fragments and re-arms a timer. -/
theorem flushDebounce_inflight_frame (maxMsgs maxChars : Nat) (s : DState)
    (p : Pending) (hp : s.pending = some p) (hf : s.inFlight = true) :
    flushDebounce maxMsgs maxChars s = s ∧
    (∀ t tok,
      (enqueueDebounce maxMsgs maxChars s t tok).pending =
        some ⟨s.nextTimer,
          trimDebounceBuffer maxMsgs maxChars (p.messages ++ [t]), tok⟩ ∧
      s.nextTimer ∈ (enqueueDebounce maxMsgs maxChars s t tok).activeTimers ∧
      (enqueueDebounce maxMsgs maxChars s t tok).answers = s.answers) := by
  constructor
  · simp [flushDebounce, hp, hf]
  · intro t tok
    refine ⟨?_, ?_, ?_⟩ <;> simp [enqueueDebounce, hp]

/-- A sample state with a flush already executing and a retained buffer. -/
def inflightSample : DState :=
  { pending := some ⟨0, [[ 'h', 'i' ]], 9⟩, inFlight := true, history := [],
    answers := [], activeTimers := [], nextTimer := 1 }

/-- Witness for C10 at a concrete in-flight state. -/
theorem flushDebounce_inflight_frame_witness :
    flushDebounce 5 800 inflightSample = inflightSample ∧
    (enqueueDebounce 5 800 inflightSample [ 'y' ] 2).pending =
      some ⟨1, trimDebounceBuffer 5 800 ([[ 'h', 'i' ]] ++ [[ 'y' ]]), 2⟩ ∧
    1 ∈ (enqueueDebounce 5 800 inflightSample [ 'y' ] 2).activeTimers ∧
    (enqueueDebounce 5 800 inflightSample [ 'y' ] 2).answers
      = inflightSample.answers := by
  obtain ⟨h1, h2⟩ := flushDebounce_inflight_frame 5 800 inflightSample
    ⟨0, [[ 'h', 'i' ]], 9⟩ (by rfl) (by rfl)
  obtain ⟨ha, hb, hc⟩ := h2 [ 'y' ] 2
  exact ⟨h1, ha, hb, hc⟩

/-- The release vocabulary of `isReleaseCommand`
(lineHandlers.ts lines 95-106). -/
def releaseWords : List JStr :=
  [ "解除".toList, "担当者解除".toList, "担当者終了".toList, "再開".toList,
    "bot再開".toList, "Bot再開".toList, "BOT再開".toList ]

/-- `isReleaseCommand(text)`: the trimmed text equals one of the release
words. -/
def isReleaseCommand (text : JStr) : Bool :=
  releaseWords.contains (jsTrim text)

/-- The bug keywords of `isBugReport` (lineHandlers.ts lines 111-127). -/
def bugKeywords : List JStr :=
  [ "バグ".toList, "不具合".toList, "エラー".toList, "問題".toList,
    "動かない".toList, "壊れた".toList, "おかしい".toList, "変".toList,
    "バグ報告".toList, "不具合報告".toList, "エラー報告".toList ]

/-- `isBugReport(text)`: the lower-cased trimmed text contains one of the
bug keywords. -/
def isBugReport (text : JStr) : Bool :=
  bugKeywords.any (fun kw => jsIncludes kw (jsTrim (jsLower text)))

/-- The per-user state consulted by the text-message dispatcher of
`handleLineWebhook`: whether a bug-report detail is pending
(`bugReportPending`), the durable handoff flag, the session history, and
whether the staff notification channel is configured. -/
structure MsgState where
  bugPending : Bool
  handoffEnabled : Bool
  history : List JStr
  staffConfigured : Bool
deriving Repr, DecidableEq

/-- What the dispatcher does with one inbound text message. -/
inductive Outcome where
  | bugDetailAck
  | bugReportPrompt
  | staffRequested
  | releaseAck
  | handoffForward (current : JStr) (prev prev2 : Option JStr)
  | handoffSilent
  | enqueuedToPipeline
deriving Repr, DecidableEq

/-- Whether the branch itself replies to the end user. -/
def repliesToUser : Outcome → Bool
  | .bugDetailAck => true
  | .bugReportPrompt => true
  | .staffRequested => true
  | .releaseAck => true
  | _ => false

/-- The element before the last one. -/
def secondLastOf (l : List JStr) : Option JStr := l.dropLast.getLast?

/-- The text-message dispatcher of `handleLineWebhook` (lineHandlers.ts
lines 836-1015), branch for branch: pending bug-report detail first (lines
854-894), then bug-keyword detection (lines 897-920), then the literal
`担当者` staff request (lines 923-947, which suspends the user when the
staff channel is configured), then — only then — the handoff branch (lines
949-1003): release command, or forward-to-staff with the current text and
the last two history turns plus history append (when staff is configured),
or nothing; otherwise the message is enqueued into the debounce pipeline. -/
def processMessage (s : MsgState) (text : JStr) : Outcome × MsgState :=
  if s.bugPending then
    (.bugDetailAck, { s with bugPending := false })
  else if isBugReport (jsTrim text) then
    (.bugReportPrompt, { s with bugPending := true })
  else if jsTrim text = "担当者".toList then
    (.staffRequested,
      if s.staffConfigured then { s with handoffEnabled := true } else s)
  else if s.handoffEnabled then
    if isReleaseCommand (jsTrim text) then
      (.releaseAck, { s with handoffEnabled := false })
    else if s.staffConfigured then
      (.handoffForward (jsTrim text) s.history.getLast?
          (secondLastOf s.history),
        { s with history := trimFront 10 (s.history ++ [jsTrim text]) })
    else
      (.handoffSilent, s)
  else
    (.enqueuedToPipeline, s)

/-- **C2 (counterexample).**  A suspended user's message `バグ` is not a
release command, yet the bug-report branch — which precedes the handoff
check — answers it with an automated reply, does not forward it to the
staff channel and does not append it to the session history. -/
theorem handoff_bugreport_counterexample :
    (MsgState.mk false true [] true).handoffEnabled = true ∧
    isReleaseCommand ("バグ".toList) = false ∧
    repliesToUser
      (processMessage (MsgState.mk false true [] true) ("バグ".toList)).1
      = true ∧
    (processMessage (MsgState.mk false true [] true) ("バグ".toList)).1
      = Outcome.bugReportPrompt ∧
    (processMessage (MsgState.mk false true [] true) ("バグ".toList)).2.history
      = [] := by
  decide

/-- **C2 (amended).**  For a suspended user, a message that is none of: a
pending bug-report detail, a bug keyword match, or the literal `担当者`,
and is not a release command, is handled exactly as claimed (staff channel
configured): no automated reply, forwarded to staff with the current text
and up to two prior turns, appended to session history, suspension kept.
Moreover every non-release message of a suspended user — including the
intercepted bug-report and `担当者` ones — never reaches the debounce /
answer-generation pipeline and leaves the record suspended. -/
theorem handoff_suspended_dispatch (s : MsgState) (text : JStr)
    (hen : s.handoffEnabled = true) (hnb : s.bugPending = false)
    (hnbug : isBugReport (jsTrim text) = false)
    (hnstaff : jsTrim text ≠ "担当者".toList)
    (hnrel : isReleaseCommand (jsTrim text) = false) :
    (s.staffConfigured = true →
      (processMessage s text).1
        = Outcome.handoffForward (jsTrim text) s.history.getLast?
            (secondLastOf s.history) ∧
      repliesToUser (processMessage s text).1 = false ∧
      (processMessage s text).2.history
        = trimFront 10 (s.history ++ [jsTrim text]) ∧
      (processMessage s text).2.handoffEnabled = true) ∧
    (∀ (s' : MsgState) (t' : JStr), s'.handoffEnabled = true →
      isReleaseCommand (jsTrim t') = false →
      (processMessage s' t').1 ≠ Outcome.enqueuedToPipeline ∧
      (processMessage s' t').2.handoffEnabled = true) := by
  constructor
  · intro hcfg
    simp only [processMessage]
    rw [if_neg (by simp [hnb]), if_neg (by simp [hnbug]), if_neg hnstaff,
      if_pos hen, if_neg (by simp [hnrel]), if_pos hcfg]
    exact ⟨rfl, rfl, rfl, hen⟩
  · intro s' t' hen' hnrel'
    simp only [processMessage]
    by_cases h1 : s'.bugPending = true
    · rw [if_pos h1]
      exact ⟨by simp, hen'⟩
    · rw [if_neg h1]
      by_cases h2 : isBugReport (jsTrim t') = true
      · rw [if_pos h2]
        exact ⟨by simp, hen'⟩
      · rw [if_neg h2]
        by_cases h3 : jsTrim t' = "担当者".toList
        · rw [if_pos h3]
          refine ⟨by simp, ?_⟩
          by_cases h4 : s'.staffConfigured = true
          · rw [if_pos h4]
          · rw [if_neg h4]
            exact hen'
        · rw [if_neg h3, if_pos hen', if_neg (by simp [hnrel'])]
          by_cases h5 : s'.staffConfigured = true
          · rw [if_pos h5]
            exact ⟨by simp, hen'⟩
          · rw [if_neg h5]
            exact ⟨by simp, hen'⟩

/-- Witness for the amended C2 at a concrete suspended state and an
ordinary message. -/
theorem handoff_suspended_dispatch_witness :
    (processMessage (MsgState.mk false true [[ 'x' ]] true)
        ("こんにちは".toList)).1
      = Outcome.handoffForward ("こんにちは".toList) (some [ 'x' ]) none ∧
    (processMessage (MsgState.mk false true [[ 'x' ]] true)
        ("こんにちは".toList)).2.history
      = [[ 'x' ], "こんにちは".toList] ∧
    (processMessage (MsgState.mk false true [[ 'x' ]] true)
        ("こんにちは".toList)).2.handoffEnabled = true := by
  obtain ⟨hmain, -⟩ := handoff_suspended_dispatch
    (MsgState.mk false true [[ 'x' ]] true) ("こんにちは".toList)
    rfl rfl (by decide) (by decide) (by decide)
  obtain ⟨h1, h2, h3, h4⟩ := hmain rfl
  refine ⟨?_, ?_, h4⟩
  · rw [h1]
    decide
  · rw [h3]
    decide

/-- A durable handoff record (handoffStore.ts lines 5-11); optional fields
are `undefined` when absent (dropped from the persisted JSON). -/
structure HandoffRecord where
  enabled : Bool
  updatedAt : Nat
  updatedBy : Option String
  reason : Option String
  displayName : Option String
deriving Repr, DecidableEq

/-- The persisted handoff table. -/
abbrev HandoffState := List (String × HandoffRecord)

/-- JS `a ?? b` on optionals. -/
def nullish (a b : Option α) : Option α :=
  match a with
  | some x => some x
  | none => b

/-- `setHandoffEnabledAsync` (handoffStore.ts lines 128-146): inside the
lock, replace the user's record with one built from the params, keeping
only `displayName` from the previous record when the param omits it
(`params.displayName ?? prev?.displayName`). -/
def setHandoffEnabledAsync (st : HandoffState) (userId : String)
    (enabled : Bool) (updatedBy reason displayName : Option String)
    (now : Nat) : HandoffState :=
  setEntry st userId
    { enabled := enabled, updatedAt := now, updatedBy := updatedBy,
      reason := reason,
      displayName :=
        nullish displayName
          ((lookupKey st userId).bind HandoffRecord.displayName) }

/-- `trackUserActivityAsync` (handoffStore.ts lines 148-173): for an
existing user, update only `displayName` (when provided, truthy and
different) and `updatedAt`, spreading the rest of the previous record;
for a new user, create a disabled record. -/
def trackUserActivityAsync (st : HandoffState) (userId : String)
    (displayName : Option String) (now : Nat) : HandoffState :=
  match lookupKey st userId with
  | some prev =>
    match displayName with
    | some d =>
      if d ≠ "" ∧ some d ≠ prev.displayName then
        setEntry st userId
          { prev with displayName := some d, updatedAt := now }
      else st
    | none => st
  | none =>
    setEntry st userId
      { enabled := false, updatedAt := now, updatedBy := some userId,
        reason := some "user_activity", displayName := displayName }

/-- **C8 (counterexample).**  A write whose patch omits `updatedBy` and
`reason` does not preserve them: starting from a record with
`updatedBy = "staff"`, `reason = "staff_action"`, the written record has
`updatedBy = none` and `reason = none` (only `displayName` survives). -/
theorem handoff_write_counterexample :
    lookupKey
      (setHandoffEnabledAsync
        [ ("u", HandoffRecord.mk true 0 (some "staff") (some "staff_action")
            (some "Alice")) ]
        "u" false none none none 5) "u"
      = some (HandoffRecord.mk false 5 none none (some "Alice")) ∧
    (some "staff" : Option String) ≠ none := by
  exact ⟨rfl, by decide⟩

/-- **C8 (amended).**  `setHandoffEnabledAsync` is not a general merge: the
written record takes `enabled`, `updatedBy` and `reason` directly from the
patch (absent fields become absent), sets `updatedAt` to now, and preserves
only `displayName` from the previous record when the patch omits it.
`trackUserActivityAsync` on an existing user preserves `enabled`,
`updatedBy` and `reason`. -/
theorem handoff_write_merge (st : HandoffState) (u : String) (e : Bool)
    (ub rs dn : Option String) (now : Nat) (prev : HandoffRecord)
    (hprev : lookupKey st u = some prev) :
    lookupKey (setHandoffEnabledAsync st u e ub rs dn now) u
      = some (HandoffRecord.mk e now ub rs (nullish dn prev.displayName)) ∧
    (dn = none →
      (HandoffRecord.mk e now ub rs (nullish dn prev.displayName)).displayName
        = prev.displayName) ∧
    (∀ (d : Option String) (now2 : Nat), ∃ r,
      lookupKey (trackUserActivityAsync st u d now2) u = some r ∧
      r.enabled = prev.enabled ∧ r.updatedBy = prev.updatedBy ∧
      r.reason = prev.reason) := by
  refine ⟨?_, ?_, ?_⟩
  · simp only [setHandoffEnabledAsync, hprev, Option.bind]
    exact lookupKey_setEntry _ _ _
  · rintro rfl
    rfl
  · intro d now2
    cases d with
    | none =>
      simp only [trackUserActivityAsync, hprev]
      exact ⟨prev, rfl, rfl, rfl, rfl⟩
    | some d =>
      simp only [trackUserActivityAsync, hprev]
      by_cases hc : d ≠ "" ∧ some d ≠ prev.displayName
      · rw [if_pos hc]
        exact ⟨_, lookupKey_setEntry _ _ _, rfl, rfl, rfl⟩
      · rw [if_neg hc]
        exact ⟨prev, hprev, rfl, rfl, rfl⟩

/-- Witness for the amended C8 at a concrete store. -/
theorem handoff_write_merge_witness :
    lookupKey
      (setHandoffEnabledAsync
        [ ("u", HandoffRecord.mk true 0 (some "staff") (some "manual")
            (some "Alice")) ]
        "u" false none none none 7) "u"
      = some (HandoffRecord.mk false 7 none none
          (nullish none (some "Alice"))) ∧
    (∃ r, lookupKey
        (trackUserActivityAsync
          [ ("u", HandoffRecord.mk true 0 (some "staff") (some "manual")
              (some "Alice")) ]
          "u" (some "Bob") 9) "u" = some r ∧
      r.enabled = true ∧ r.updatedBy = some "staff" ∧
      r.reason = some "manual") := by
  obtain ⟨h1, h2, h3⟩ := handoff_write_merge
    [ ("u", HandoffRecord.mk true 0 (some "staff") (some "manual")
        (some "Alice")) ]
    "u" false none none none 7
    (HandoffRecord.mk true 0 (some "staff") (some "manual") (some "Alice"))
    rfl
  exact ⟨h1, h3 (some "Bob") 9⟩

/-- A reply-relay binding (lineHandlers.ts lines 72-75): one per staff
actor, pointing at a target end user. -/
structure RelayBinding where
  targetUserId : String
  targetDisplayName : String
  timestamp : Nat
deriving Repr, DecidableEq

/-- What the staff-message relay branch reports back to the staff actor. -/
inductive RelayOutcome where
  | notRelay
  | timeoutNotice
  | forwardReported
  | failureReported
deriving Repr, DecidableEq

/-- The reply-mode forwarding branch of `handleLineWebhook`
(lineHandlers.ts lines 651-711), for one staff actor's next message:
no live binding → the message is not treated as a relay; expired binding →
deleted with a timeout notice; otherwise the push to the target either
succeeds (binding deleted, success reported) or throws (binding still
deleted in the catch, failure reported).  `deliveryOk` stands for whether
the outbound push succeeds. -/
def consumeRelay (timeoutMs : Nat) (binding : Option RelayBinding)
    (now : Nat) (deliveryOk : Bool) : RelayOutcome × Option RelayBinding :=
  match binding with
  | none => (.notRelay, none)
  | some b =>
    if timeoutMs < now - b.timestamp then (.timeoutNotice, none)
    else if deliveryOk then (.forwardReported, none)
    else (.failureReported, none)

/-- **C9.**  Consuming a live binding deletes it whether the relay delivery
succeeds or fails, and reports the matching result to the staff actor; a
second consume attempt without a new binding finds none and is not treated
as a relay. -/
theorem relay_consume_one_shot (timeoutMs : Nat) (b : RelayBinding)
    (now now2 : Nat) (ok ok2 : Bool)
    (hlive : now - b.timestamp ≤ timeoutMs) :
    (consumeRelay timeoutMs (some b) now ok).2 = none ∧
    (consumeRelay timeoutMs (some b) now ok).1
      = (if ok then RelayOutcome.forwardReported
         else RelayOutcome.failureReported) ∧
    (consumeRelay timeoutMs
        (consumeRelay timeoutMs (some b) now ok).2 now2 ok2).1
      = RelayOutcome.notRelay := by
  have hng : ¬ timeoutMs < now - b.timestamp := not_lt.mpr hlive
  refine ⟨?_, ?_, ?_⟩ <;>
    simp only [consumeRelay, if_neg hng] <;> cases ok <;> rfl

/-- Witness for C9: a binding created at time 100, consumed at time 150
with the 3-minute timeout, once with failing delivery. -/
theorem relay_consume_one_shot_witness :
    (consumeRelay 180000 (some (RelayBinding.mk "u1" "Alice" 100)) 150
        false).2 = none ∧
    (consumeRelay 180000 (some (RelayBinding.mk "u1" "Alice" 100)) 150
        false).1
      = (if false then RelayOutcome.forwardReported
         else RelayOutcome.failureReported) ∧
    (consumeRelay 180000
        (consumeRelay 180000 (some (RelayBinding.mk "u1" "Alice" 100)) 150
          false).2 200 true).1
      = RelayOutcome.notRelay :=
  relay_consume_one_shot 180000 (RelayBinding.mk "u1" "Alice" 100) 150 200
    false true (by decide)
